import Mathlib

/-!
Shallow embedding of the client-side plain-text-to-PDF layout engine of the
CLM frontend (`sanitizeForWinAnsi`, `wrapText` and the layout portion of
`downloadTextAsPdf`).  JS strings are modelled as `List Char`, JS numbers as
`ℚ`, and the pdf-lib font object as a width-measurement function
`List Char → ℚ → ℚ` (the only font capability the layout code uses is
`font.widthOfTextAtSize(text, size)`).
-/

namespace CLMPdf

/-- The ECMAScript whitespace class `\s`, as used by `split(/\s+/)` and by
`String.prototype.trim`. -/
def jsWhitespace (c : Char) : Bool :=
  (decide (9 ≤ c.toNat) && decide (c.toNat ≤ 13)) || c.toNat == 0x20 ||
  c.toNat == 0xA0 || c.toNat == 0x1680 ||
  (decide (0x2000 ≤ c.toNat) && decide (c.toNat ≤ 0x200A)) ||
  c.toNat == 0x2028 || c.toNat == 0x2029 || c.toNat == 0x202F ||
  c.toNat == 0x205F || c.toNat == 0x3000 || c.toNat == 0xFEFF

/-- The per-character filter loop of `sanitizeForWinAnsi` (source lines 17-31):
keep `\n`, `\r`, `\t` and printable ASCII `0x20..0x7E`, replace anything else
with a space. -/
def keepWinAnsi (c : Char) : Char :=
  if c = '\n' ∨ c = '\r' ∨ c = '\t' then c
  else if 0x20 ≤ c.toNat ∧ c.toNat ≤ 0x7E then c
  else ' '

/-- One `.replace(regex, repl)` stage of `sanitizeForWinAnsi`: each of the
regexes there is an alternative of single code points, so a stage replaces
every character in `targets` by `repl`. -/
def substStage (targets repl s : List Char) : List Char :=
  s.flatMap fun c => if c ∈ targets then repl else [c]

/-- The chain of nine `.replace` calls of `sanitizeForWinAnsi`
(source lines 6-15), in source order.  All the replacement texts are ASCII and
all the target code points are above `0x7E`, so the sequential
left-to-right regex replacements of the source are exactly this
stage-by-stage character substitution. -/
def winAnsiReplacements (input : List Char) : List Char :=
  let s1 := substStage ['☐'] "[ ]".toList input
  let s2 := substStage ['☑'] "[x]".toList s1
  let s3 := substStage ['✅'] "[x]".toList s2
  let s4 := substStage ['✓', '✔'] "x".toList s3
  let s5 := substStage ['•', '●', '■'] "*".toList s4
  let s6 := substStage ['‐', '‑', '‒', '–', '—', '−'] "-".toList s5
  let s7 := substStage ['‘', '’', '‛', '′'] ['\''] s6
  let s8 := substStage ['“', '”', '‟', '″'] ['"'] s7
  substStage ['\u00A0'] " ".toList s8

/-- The function `sanitizeForWinAnsi` (source lines 3-33): the nine unicode-to-ASCII
replacements followed by the per-character keep/space filter. -/
def sanitizeForWinAnsi (input : List Char) : List Char :=
  (winAnsiReplacements input).map keepWinAnsi

/-- The `.replace(/\r\n/g, '\n')` step of `wrapText` (source line 44):
left-to-right, non-overlapping replacement of each CRLF pair by LF. -/
def normalizeCrlf : List Char → List Char
  | [] => []
  | [c] => [c]
  | a :: b :: rest =>
    if a = '\r' ∧ b = '\n' then '\n' :: normalizeCrlf rest
    else a :: normalizeCrlf (b :: rest)

/-- Worker for `splitOnNl`; `acc` is the current piece, reversed. -/
def splitOnNlGo : List Char → List Char → List (List Char)
  | [], acc => [acc.reverse]
  | c :: cs, acc =>
    if c = '\n' then acc.reverse :: splitOnNlGo cs []
    else splitOnNlGo cs (c :: acc)

/-- JS `String.prototype.split('\n')` (source line 44): split at every LF,
keeping empty pieces. -/
def splitOnNl (s : List Char) : List (List Char) :=
  splitOnNlGo s []

/-- Worker for `splitWs`; `acc` is the current word reversed, `sep` records
whether the previous character belonged to a whitespace run (so that a run of
whitespace produces a single split). -/
def splitWsGo : List Char → List Char → Bool → List (List Char)
  | [], acc, _ => [acc.reverse]
  | c :: cs, acc, sep =>
    if jsWhitespace c then
      if sep then splitWsGo cs acc true
      else acc.reverse :: splitWsGo cs [] true
    else splitWsGo cs (c :: acc) false

/-- JS `para.split(/\s+/g)` (source line 52): split at every maximal run of
whitespace; a leading or trailing run contributes an empty piece, exactly as
in JS. -/
def splitWs (s : List Char) : List (List Char) :=
  splitWsGo s [] false

/-- The cut point of one hard-break iteration (source lines 68-69):
`cut = Math.min(token.length - 1, Math.max(1, Math.floor((maxWidth / width(token)) * token.length)))`. -/
def hardBreakCut (wd : List Char → ℚ) (maxWidth : ℚ) (token : List Char) : Nat :=
  (min ((token.length : ℤ) - 1)
    (max 1 ⌊maxWidth / wd token * (token.length : ℚ)⌋)).toNat

/-- The hard-break loop of `wrapText` (source lines 66-72).  `fuel` is an
upper bound on the number of iterations; every iteration cuts the token by at
least one and at most `length - 1` characters, so `fuel = token.length` (the
value used by `wrapWords`) always suffices and the result is the exact loop
behaviour.  Returns the emitted chunk lines and the final remainder token. -/
def hardBreakGo (wd : List Char → ℚ) (maxWidth : ℚ) :
    Nat → List Char → List (List Char) × List Char
  | 0, token => ([], token)
  | fuel + 1, token =>
    if maxWidth < wd token ∧ 1 < token.length then
      let cut := hardBreakCut wd maxWidth token
      let r := hardBreakGo wd maxWidth fuel (token.drop cut)
      (token.take cut :: r.1, r.2)
    else ([], token)

/-- The per-paragraph word loop of `wrapText` (source lines 53-76): greedily
extend `current` with the next word (joined by a single space) while the
result still fits, otherwise flush `current` and hard-break the word. -/
def wrapWords (wd : List Char → ℚ) (maxWidth : ℚ) :
    List (List Char) → List Char → List (List Char)
  | [], current => if current = [] then [] else [current]
  | w :: ws, current =>
    let next := if current = [] then w else current ++ ' ' :: w
    if wd next ≤ maxWidth then wrapWords wd maxWidth ws next
    else
      (if current = [] then [] else [current]) ++
        (let hb := hardBreakGo wd maxWidth w.length w
         hb.1 ++ wrapWords wd maxWidth ws hb.2)

/-- The function `wrapText` (source lines 35-80): normalize CRLF, split into paragraphs at
LF, emit one empty line per empty paragraph, and word-wrap each non-empty
paragraph. -/
def wrapText (text : List Char) (maxWidth : ℚ) (font : List Char → ℚ → ℚ)
    (fontSize : ℚ) : List (List Char) :=
  (splitOnNl (normalizeCrlf text)).flatMap fun para =>
    if para = [] then [[]]
    else wrapWords (fun s => font s fontSize) maxWidth (splitWs para) []

/-- One `page.drawText` call of the body loop of `downloadTextAsPdf`:
the page it lands on (0-based), the position, and the drawn text. -/
structure BodyDraw where
  pageIdx : Nat
  x : ℚ
  y : ℚ
  text : List Char
deriving DecidableEq

/-- The body pagination loop of `downloadTextAsPdf` (source lines 130-145):
`page` is the index of the current page, `y` the vertical cursor.  If the
cursor is at or below the bottom margin a new page is started and the cursor
reset to `pageHeight - marginTop`; then the line is drawn and the cursor
decremented by the leading.  Returns the index of the last page and the list
of draw calls in order. -/
def pagLoop (marginBottom marginTop pageHeight marginX leading : ℚ) :
    List (List Char) → Nat → ℚ → Nat × List BodyDraw
  | [], page, _ => (page, [])
  | l :: ls, page, y =>
    if y ≤ marginBottom then
      let r := pagLoop marginBottom marginTop pageHeight marginX leading ls
        (page + 1) (pageHeight - marginTop - leading)
      (r.1, ⟨page + 1, marginX, pageHeight - marginTop, l⟩ :: r.2)
    else
      let r := pagLoop marginBottom marginTop pageHeight marginX leading ls
        page (y - leading)
      (r.1, ⟨page, marginX, y, l⟩ :: r.2)

/-- JS `filename.replace(/\.txt$/i, '')` test (source line 87): does the
string end in `.txt`, case-insensitively? -/
def endsWithTxt (l : List Char) : Bool :=
  (l.reverse.take 4).map Char.toLower == ['t', 'x', 't', '.']

/-- JS `filename.replace(/\.txt$/i, '')` (source line 87): strip one trailing
`.txt`, case-insensitively. -/
def stripTxtExt (l : List Char) : List Char :=
  if endsWithTxt l then l.take (l.length - 4) else l

/-- JS `String.prototype.trim`: drop whitespace from both ends. -/
def trimJs (l : List Char) : List Char :=
  ((l.dropWhile jsWhitespace).reverse.dropWhile jsWhitespace).reverse

/-- JS `String.prototype.toUpperCase`, restricted to the ASCII range the
sanitized strings of this module live in (`Char.toUpper` maps `a-z` to `A-Z`
and leaves everything else unchanged). -/
def asciiUpper (l : List Char) : List Char :=
  l.map Char.toUpper

/-- The layout-relevant outcome of `downloadTextAsPdf` (source lines 82-145):
the output name, the wrapped lines, the drawn header title (already
upper-cased) when the header block is drawn, the number of pages added, and
the body `drawText` calls. -/
structure LayoutResult where
  outName : List Char
  lines : List (List Char)
  headerTitle : Option (List Char)
  numPages : Nat
  bodyDraws : List BodyDraw
deriving DecidableEq

/-- The pure layout computation of `downloadTextAsPdf` (source lines 82-145):
filename fallback and `.txt` stripping, sanitization, wrapping at the usable
width, the optional title header (which moves the cursor down by 26 and then
18 points), and the body pagination loop.  `title?` is `none` when the
optional `title` parameter is absent. -/
def layoutPdf (filename : List Char) (title? : Option (List Char))
    (text : List Char) (font fontBold : List Char → ℚ → ℚ) : LayoutResult :=
  let pageWidth : ℚ := 612
  let pageHeight : ℚ := 792
  let marginX : ℚ := 54
  let marginTop : ℚ := 64
  let marginBottom : ℚ := 54
  let fontSize : ℚ := 11
  let leading : ℚ := 16
  let filenameBase := stripTxtExt (if filename = [] then "template".toList else filename)
  let outName := filenameBase ++ ".pdf".toList
  let maxTextWidth := pageWidth - marginX * 2
  let safeText := sanitizeForWinAnsi text
  let lines := wrapText safeText maxTextWidth font fontSize
  let y0 := pageHeight - marginTop
  let rawTitle := match title? with
    | none => filenameBase
    | some t => if t = [] then filenameBase else t
  let title := trimJs rawTitle
  let header := if title = [] then none else some (asciiUpper title)
  let y1 := if title = [] then y0 else y0 - 26 - 18
  let pag := pagLoop marginBottom marginTop pageHeight marginX leading lines 0 y1
  ⟨outName, lines, header, pag.1 + 1, pag.2⟩

/-- A monospace font capability: every character is `cw` points wide at every
size (the deterministic fake the spec proposes for testing the wrapper). -/
def monoFont (cw : ℚ) : List Char → ℚ → ℚ :=
  fun s _ => cw * s.length

/-- A two-width font capability: `W` measures 5 points, every other character
1 point, at every size.  An abstraction of any proportional font whose widest
glyph is five times its narrowest. -/
def cexFont : List Char → ℚ → ℚ :=
  fun s _ => (s.map fun c => if c = 'W' then (5 : ℚ) else 1).sum

/-- A body text of `n` one-character paragraphs, separated by LF. -/
def aLines (n : Nat) : List Char :=
  List.intercalate ['\n'] (List.replicate n ['a'])

/-- The header fallback as claim C10 states it: the filename (with only a
trailing `.txt` stripped case-insensitively, defaulting to `template` when
the filename is empty), trimmed and upper-cased; no header at all when that
string is empty after trimming. -/
def headerFallbackSpec (filename : List Char) : Option (List Char) :=
  let base := stripTxtExt (if filename = [] then "template".toList else filename)
  if trimJs base = [] then none else some (asciiUpper (trimJs base))

lemma keepWinAnsi_safe (c : Char) :
    keepWinAnsi c = '\n' ∨ keepWinAnsi c = '\r' ∨ keepWinAnsi c = '\t' ∨
      (0x20 ≤ (keepWinAnsi c).toNat ∧ (keepWinAnsi c).toNat ≤ 0x7E) := by
  unfold keepWinAnsi
  split
  · next h => tauto
  · split
    · next h => tauto
    · right; right; right; exact ⟨by decide, by decide⟩

/-- C6: for every input string `x`, every character of `sanitizeForWinAnsi x`
is `\n`, `\r`, `\t` or has a code point in the range `[0x20, 0x7E]`. -/
theorem sanitize_range (x : List Char) (c : Char) (hc : c ∈ sanitizeForWinAnsi x) :
    c = '\n' ∨ c = '\r' ∨ c = '\t' ∨ (0x20 ≤ c.toNat ∧ c.toNat ≤ 0x7E) := by
  rcases List.mem_map.mp hc with ⟨b, _, rfl⟩
  exact keepWinAnsi_safe b

theorem sanitize_range_witness :
    ' ' = '\n' ∨ ' ' = '\r' ∨ ' ' = '\t' ∨ (0x20 ≤ ' '.toNat ∧ ' '.toNat ≤ 0x7E) :=
  sanitize_range "é".toList ' ' (by decide)

lemma safe_lt_xA0 (c : Char)
    (h : c = '\n' ∨ c = '\r' ∨ c = '\t' ∨ (0x20 ≤ c.toNat ∧ c.toNat ≤ 0x7E)) :
    c.toNat < 0xA0 := by
  rcases h with rfl | rfl | rfl | ⟨h1, h2⟩
  · decide
  · decide
  · decide
  · omega

lemma substStage_id (targets repl : List Char) :
    ∀ (l : List Char), (∀ c ∈ l, c ∉ targets) → substStage targets repl l = l
  | [], _ => rfl
  | c :: cs, h => by
    have hc : c ∉ targets := h c (List.mem_cons_self c cs)
    have ih := substStage_id targets repl cs (fun d hd => h d (List.mem_cons_of_mem _ hd))
    simp only [substStage, List.flatMap_cons, if_neg hc] at *
    simp [ih]

lemma winAnsiReplacements_id (l : List Char) (h : ∀ c ∈ l, c.toNat < 0xA0) :
    winAnsiReplacements l = l := by
  have hs : ∀ (targets repl : List Char), (∀ t ∈ targets, 0xA0 ≤ t.toNat) →
      substStage targets repl l = l := fun targets repl ht =>
    substStage_id targets repl l
      (fun c hc hmem => absurd (h c hc) (not_lt.mpr (ht c hmem)))
  show substStage _ _ (substStage _ _ (substStage _ _ (substStage _ _ (substStage _ _
    (substStage _ _ (substStage _ _ (substStage _ _ (substStage _ _ l)))))))) = l
  rw [hs ['☐'] "[ ]".toList (by decide), hs ['☑'] "[x]".toList (by decide),
    hs ['✅'] "[x]".toList (by decide), hs ['✓', '✔'] "x".toList (by decide),
    hs ['•', '●', '■'] "*".toList (by decide),
    hs ['‐', '‑', '‒', '–', '—', '−'] "-".toList (by decide),
    hs ['‘', '’', '‛', '′'] ['\''] (by decide),
    hs ['“', '”', '‟', '″'] ['"'] (by decide),
    hs ['\u00A0'] " ".toList (by decide)]

lemma keepWinAnsi_id (c : Char)
    (h : c = '\n' ∨ c = '\r' ∨ c = '\t' ∨ (0x20 ≤ c.toNat ∧ c.toNat ≤ 0x7E)) :
    keepWinAnsi c = c := by
  unfold keepWinAnsi
  rcases h with rfl | rfl | rfl | ⟨h1, h2⟩
  · rw [if_pos (by tauto)]
  · rw [if_pos (by tauto)]
  · rw [if_pos (by tauto)]
  · split
    · rfl
    · rw [if_pos ⟨h1, h2⟩]

lemma map_id_of_mem_id (f : Char → Char) :
    ∀ (l : List Char), (∀ c ∈ l, f c = c) → l.map f = l
  | [], _ => rfl
  | c :: cs, h => by
    simp only [List.map_cons]
    rw [h c (List.mem_cons_self c cs),
      map_id_of_mem_id f cs (fun d hd => h d (List.mem_cons_of_mem _ hd))]

lemma sanitize_fixes_safe (l : List Char)
    (h : ∀ c ∈ l, c = '\n' ∨ c = '\r' ∨ c = '\t' ∨ (0x20 ≤ c.toNat ∧ c.toNat ≤ 0x7E)) :
    sanitizeForWinAnsi l = l := by
  unfold sanitizeForWinAnsi
  rw [winAnsiReplacements_id l (fun c hc => safe_lt_xA0 c (h c hc))]
  exact map_id_of_mem_id keepWinAnsi l (fun c hc => keepWinAnsi_id c (h c hc))

/-- C7: `sanitizeForWinAnsi` is idempotent. -/
theorem sanitize_idem (x : List Char) :
    sanitizeForWinAnsi (sanitizeForWinAnsi x) = sanitizeForWinAnsi x :=
  sanitize_fixes_safe (sanitizeForWinAnsi x)
    (fun c hc => by
      rcases List.mem_map.mp hc with ⟨b, _, rfl⟩
      exact keepWinAnsi_safe b)

/-- C9: the layout computation is deterministic; equal inputs (filename,
title, body text and width-measurement functions) give equal wrapped lines,
page counts and draw calls. -/
theorem layout_deterministic (f1 f2 : List Char) (t1 t2 : Option (List Char))
    (x1 x2 : List Char) (fo1 fo2 fb1 fb2 : List Char → ℚ → ℚ)
    (hf : f1 = f2) (ht : t1 = t2) (hx : x1 = x2) (ho : fo1 = fo2) (hb : fb1 = fb2) :
    layoutPdf f1 t1 x1 fo1 fb1 = layoutPdf f2 t2 x2 fo2 fb2 := by
  subst hf; subst ht; subst hx; subst ho; subst hb; rfl

theorem layout_deterministic_witness :
    layoutPdf "a.txt".toList none "hello".toList (monoFont 1) (monoFont 2) =
      layoutPdf "a.txt".toList none "hello".toList (monoFont 1) (monoFont 2) :=
  layout_deterministic _ _ _ _ _ _ _ _ _ _ rfl rfl rfl rfl rfl

/-- C10: with the title absent or empty the drawn header falls back to the
filename base (trailing `.txt` stripped case-insensitively, `template` when
the filename is empty), trimmed and upper-cased, and the header block is
omitted exactly when that fallback trims to the empty string. -/
theorem header_fallback (filename text : List Char) (title? : Option (List Char))
    (font fontBold : List Char → ℚ → ℚ) (h : title? = none ∨ title? = some []) :
    (layoutPdf filename title? text font fontBold).headerTitle =
      headerFallbackSpec filename := by
  rcases h with rfl | rfl <;> simp only [layoutPdf, headerFallbackSpec] <;> rfl

theorem header_fallback_witness :
    (layoutPdf "doc.txt".toList none "hi".toList (monoFont 1) (monoFont 1)).headerTitle =
      headerFallbackSpec "doc.txt".toList :=
  header_fallback "doc.txt".toList "hi".toList none (monoFont 1) (monoFont 1) (Or.inl rfl)

lemma pagLoop_y_above (mb mt ph mx ld : ℚ) (hm : mb < ph - mt) :
    ∀ (lines : List (List Char)) (page : Nat) (y : ℚ) (d : BodyDraw),
      d ∈ (pagLoop mb mt ph mx ld lines page y).2 → mb < d.y := by
  intro lines
  induction lines with
  | nil => intro page y d hd; simp [pagLoop] at hd
  | cons l ls ih =>
    intro page y d hd
    by_cases hy : y ≤ mb
    · simp only [pagLoop, if_pos hy] at hd
      rcases List.mem_cons.mp hd with rfl | hd'
      · exact hm
      · exact ih _ _ _ hd'
    · simp only [pagLoop, if_neg hy] at hd
      rcases List.mem_cons.mp hd with rfl | hd'
      · exact lt_of_not_le hy
      · exact ih _ _ _ hd'

/-- C8: every body line is drawn with the cursor strictly above the bottom
margin; when the cursor is at or below the bottom margin and a line remains,
a page is added and the cursor reset to `pageHeight - marginTop` before that
line is drawn, and when it is above the bottom margin the line is drawn on
the current page at the current cursor — the cursor check is the only
page-break trigger. -/
theorem pag_cursor_invariant (mb mt ph mx ld : ℚ) (l : List Char)
    (ls : List (List Char)) (page : Nat) (y : ℚ) (d : BodyDraw)
    (hm : mb < ph - mt)
    (hd : d ∈ (pagLoop mb mt ph mx ld (l :: ls) page y).2) :
    mb < d.y ∧
    (y ≤ mb → pagLoop mb mt ph mx ld (l :: ls) page y =
      ((pagLoop mb mt ph mx ld ls (page + 1) (ph - mt - ld)).1,
       ⟨page + 1, mx, ph - mt, l⟩ ::
         (pagLoop mb mt ph mx ld ls (page + 1) (ph - mt - ld)).2)) ∧
    (mb < y → pagLoop mb mt ph mx ld (l :: ls) page y =
      ((pagLoop mb mt ph mx ld ls page (y - ld)).1,
       ⟨page, mx, y, l⟩ :: (pagLoop mb mt ph mx ld ls page (y - ld)).2)) := by
  refine ⟨pagLoop_y_above mb mt ph mx ld hm _ _ _ _ hd, fun hy => ?_, fun hy => ?_⟩
  · simp [pagLoop, if_pos hy]
  · simp [pagLoop, if_neg (not_le.mpr hy)]

set_option maxRecDepth 8000 in
theorem pag_cursor_invariant_witness :
    (54 : ℚ) < 792 - 64 ∧ (54 : ℚ) < (BodyDraw.mk 0 54 728 ['a']).y :=
  ⟨by norm_num,
    (pag_cursor_invariant 54 64 792 54 16 ['a'] [] 0 728 ⟨0, 54, 728, ['a']⟩
      (by norm_num) (by with_unfolding_all decide)).1⟩

set_option maxRecDepth 100000 in
/-- C2 amended: with leading 16, top margin 64, bottom margin 54 and page
height 792 and no title, a page receives `floor((792-64-54)/16) + 1 = 43`
body lines (the cursor check fires only once `y` has dropped to or below the
bottom margin), so 200 short lines produce `ceil(200/43) = 5` pages, 43 on
each of the first four pages. -/
theorem paginate_200 :
    (layoutPdf ".txt".toList none (aLines 200) (monoFont 1) (monoFont 1)).numPages = 5 ∧
    ((layoutPdf ".txt".toList none (aLines 200) (monoFont 1) (monoFont 1)).bodyDraws.countP
      (fun d => d.pageIdx == 0)) = 43 ∧
    ⌈(200 : ℚ) / 43⌉ = 5 := by
  with_unfolding_all decide

set_option maxRecDepth 100000 in
/-- C2 as stated is false: page breaks do not occur every 42 lines.  With 200
short lines the 43rd line (index 42) is still drawn on the first page (page
index 0, at cursor 56 > 54), while a break every 42 lines would place it on
the second page (index 42 / 42 = 1). -/
theorem paginate_break_cex :
    ((layoutPdf ".txt".toList none (aLines 200) (monoFont 1) (monoFont 1)).bodyDraws[42]?) =
      some ⟨0, 54, 56, ['a']⟩ ∧ (0 : ℕ) ≠ 42 / 42 := by
  with_unfolding_all decide

/-- C3 amended: with empty body text and an absent title the layout produces
exactly one page, the body loop performs exactly one draw call — of the empty
line that wrapping the empty string yields — and the header block is omitted
exactly when the filename fallback trims to the empty string. -/
theorem layout_empty_text (filename : List Char) (font fontBold : List Char → ℚ → ℚ) :
    (layoutPdf filename none [] font fontBold).numPages = 1 ∧
    (layoutPdf filename none [] font fontBold).bodyDraws.map BodyDraw.text = [[]] ∧
    ((layoutPdf filename none [] font fontBold).headerTitle = none ↔
      trimJs (stripTxtExt (if filename = [] then "template".toList else filename)) = []) := by
  have hw : wrapText (sanitizeForWinAnsi []) (612 - 54 * 2) font 11 = [[]] := rfl
  by_cases h : trimJs (stripTxtExt (if filename = [] then "template".toList else filename)) = []
  · simp only [layoutPdf, hw, h]; norm_num [pagLoop]
  · simp only [layoutPdf, hw, h]; norm_num [pagLoop]; simp

/-- C3 as stated is false: with empty text and no title the code still makes
one `drawText` call (of the single empty line that wrapping `""` yields), and
the header is drawn, because the title falls back to the filename base. -/
theorem layout_empty_cex :
    (layoutPdf "doc".toList none [] (monoFont 1) (monoFont 1)).bodyDraws.length = 1 ∧
    (layoutPdf "doc".toList none [] (monoFont 1) (monoFont 1)).headerTitle =
      some "DOC".toList := by
  with_unfolding_all decide

/-- C5 amended: `wrapText` is a total function (the hard-break loop consumes
at least one character per iteration, which the `fuel = token.length` bound
of `hardBreakGo` makes explicit), and a single non-whitespace character whose
measured width exceeds `maxWidth` is returned as exactly that one-character
line. -/
theorem wrap_single_char (c : Char) (maxWidth fontSize : ℚ)
    (font : List Char → ℚ → ℚ) (hws : jsWhitespace c = false)
    (hw : maxWidth < font [c] fontSize) :
    wrapText [c] maxWidth font fontSize = [[c]] := by
  have hcn : c ≠ '\n' := fun h => by subst h; exact absurd hws (by decide)
  have hnle : ¬ font [c] fontSize ≤ maxWidth := not_le.mpr hw
  simp [wrapText, normalizeCrlf, splitOnNl, splitOnNlGo, splitWs, splitWsGo,
    wrapWords, hardBreakGo, hcn, hws, hnle]

theorem wrap_single_char_witness :
    wrapText ['W'] (1 / 2) (monoFont 1) 11 = [['W']] :=
  wrap_single_char 'W' (1 / 2) 11 (monoFont 1) (by decide) (by with_unfolding_all decide)

/-- C5 as stated is false for a whitespace character: the input `"\n"` is a
single character, and with per-character width 1 and `maxWidth = 1/2` its
measured width exceeds `maxWidth`, yet `wrapText` returns two empty lines
(the newline separates two empty paragraphs), not the character itself. -/
theorem wrap_single_char_cex :
    wrapText ['\n'] (1 / 2) (monoFont 1) 11 = [[], []] ∧
    (1 / 2 : ℚ) < monoFont 1 ['\n'] 11 ∧
    wrapText ['\n'] (1 / 2) (monoFont 1) 11 ≠ [['\n']] := by
  with_unfolding_all decide

lemma hardBreakGo_succ (wd : List Char → ℚ) (maxWidth : ℚ) (fuel : Nat) (token : List Char) :
    hardBreakGo wd maxWidth (fuel + 1) token =
      if maxWidth < wd token ∧ 1 < token.length then
        ((token.take (hardBreakCut wd maxWidth token)) ::
          (hardBreakGo wd maxWidth fuel (token.drop (hardBreakCut wd maxWidth token))).1,
         (hardBreakGo wd maxWidth fuel (token.drop (hardBreakCut wd maxWidth token))).2)
      else ([], token) := by
  rw [hardBreakGo]

lemma wrapWords_nil (wd : List Char → ℚ) (maxWidth : ℚ) (current : List Char) :
    wrapWords wd maxWidth [] current = if current = [] then [] else [current] := by
  rw [wrapWords]

lemma wrapWords_cons (wd : List Char → ℚ) (maxWidth : ℚ) (w : List Char)
    (ws : List (List Char)) (current : List Char) :
    wrapWords wd maxWidth (w :: ws) current =
      if wd (if current = [] then w else current ++ ' ' :: w) ≤ maxWidth then
        wrapWords wd maxWidth ws (if current = [] then w else current ++ ' ' :: w)
      else
        (if current = [] then [] else [current]) ++
          ((hardBreakGo wd maxWidth w.length w).1 ++
            wrapWords wd maxWidth ws (hardBreakGo wd maxWidth w.length w).2) := by
  rw [wrapWords]

lemma wrapWords_cons_nil (wd : List Char → ℚ) (maxWidth : ℚ) (w : List Char)
    (ws : List (List Char)) :
    wrapWords wd maxWidth (w :: ws) [] =
      if wd w ≤ maxWidth then wrapWords wd maxWidth ws w
      else (hardBreakGo wd maxWidth w.length w).1 ++
        wrapWords wd maxWidth ws (hardBreakGo wd maxWidth w.length w).2 := by
  rw [wrapWords_cons]
  simp

lemma wrapWords_cons_ne (wd : List Char → ℚ) (maxWidth : ℚ) (w current : List Char)
    (ws : List (List Char)) (hcur : current ≠ []) :
    wrapWords wd maxWidth (w :: ws) current =
      if wd (current ++ ' ' :: w) ≤ maxWidth then
        wrapWords wd maxWidth ws (current ++ ' ' :: w)
      else current :: ((hardBreakGo wd maxWidth w.length w).1 ++
        wrapWords wd maxWidth ws (hardBreakGo wd maxWidth w.length w).2) := by
  rw [wrapWords_cons, if_neg hcur, if_neg hcur, List.singleton_append]

lemma hardBreakCut_pos (wd : List Char → ℚ) (maxWidth : ℚ) (token : List Char)
    (h : 1 < token.length) : 1 ≤ hardBreakCut wd maxWidth token := by
  unfold hardBreakCut
  omega

lemma hardBreakCut_lt (wd : List Char → ℚ) (maxWidth : ℚ) (token : List Char)
    (h : 1 < token.length) : hardBreakCut wd maxWidth token < token.length := by
  unfold hardBreakCut
  omega

lemma hardBreakCut_fits (wd : List Char → ℚ) (cw maxWidth : ℚ) (hcw : 0 < cw)
    (hwd : ∀ s, wd s = cw * s.length) (token : List Char)
    (hcut : 1 < hardBreakCut wd maxWidth token) :
    cw * (hardBreakCut wd maxWidth token : ℚ) ≤ maxWidth := by
  have hlen : 1 < token.length := by
    by_contra hl
    unfold hardBreakCut at hcut
    omega
  have hnpos : (0 : ℚ) < (token.length : ℚ) := by
    exact_mod_cast Nat.zero_lt_of_lt hlen
  have heq : maxWidth / wd token * (token.length : ℚ) = maxWidth / cw := by
    rw [hwd token, div_mul_eq_mul_div, mul_comm cw ((token.length : ℚ)), ← div_div,
      mul_div_assoc, div_self (ne_of_gt hnpos), mul_one]
  set F := ⌊maxWidth / wd token * (token.length : ℚ)⌋ with hF
  have hcuteq : hardBreakCut wd maxWidth token =
      (min ((token.length : ℤ) - 1) (max 1 F)).toNat := rfl
  have hle : min ((token.length : ℤ) - 1) (max 1 F) ≤ F := by
    rw [hcuteq] at hcut
    omega
  have hpos : (0 : ℤ) ≤ min ((token.length : ℤ) - 1) (max 1 F) := by omega
  have hq : ((hardBreakCut wd maxWidth token : ℕ) : ℚ) ≤ maxWidth / cw := by
    rw [hcuteq]
    calc (((min ((token.length : ℤ) - 1) (max 1 F)).toNat : ℕ) : ℚ)
        = ((min ((token.length : ℤ) - 1) (max 1 F) : ℤ) : ℚ) := by
          rw [← Int.cast_natCast, Int.toNat_of_nonneg hpos]
      _ ≤ ((F : ℤ) : ℚ) := by exact_mod_cast hle
      _ ≤ maxWidth / wd token * (token.length : ℚ) := Int.floor_le _
      _ = maxWidth / cw := heq
  have hmul := mul_le_mul_of_nonneg_left hq (le_of_lt hcw)
  rwa [mul_comm cw (maxWidth / cw), div_mul_cancel₀ _ (ne_of_gt hcw)] at hmul

lemma hardBreakGo_chunk_fits (wd : List Char → ℚ) (cw maxWidth : ℚ) (hcw : 0 < cw)
    (hwd : ∀ s, wd s = cw * s.length) :
    ∀ (fuel : Nat) (token ch : List Char),
      ch ∈ (hardBreakGo wd maxWidth fuel token).1 → 1 < ch.length →
      cw * (ch.length : ℚ) ≤ maxWidth := by
  intro fuel
  induction fuel with
  | zero =>
    intro token ch hch hl
    simp [hardBreakGo] at hch
  | succ n ih =>
    intro token ch hch hl
    rw [hardBreakGo_succ] at hch
    split at hch
    · next hg =>
      simp only [List.mem_cons] at hch
      rcases hch with rfl | hch'
      · rw [List.length_take] at hl ⊢
        have hclt := hardBreakCut_lt wd maxWidth token hg.2
        rw [min_eq_left (le_of_lt hclt)] at hl ⊢
        exact hardBreakCut_fits wd cw maxWidth hcw hwd token hl
      · exact ih _ _ hch' hl
    · simp at hch

lemma hardBreakGo_rem_exit (wd : List Char → ℚ) (maxWidth : ℚ) :
    ∀ (fuel : Nat) (token : List Char), token.length ≤ fuel →
      ¬ (maxWidth < wd (hardBreakGo wd maxWidth fuel token).2 ∧
        1 < (hardBreakGo wd maxWidth fuel token).2.length) := by
  intro fuel
  induction fuel with
  | zero =>
    intro token hle
    have h0 : token = [] := List.length_eq_zero.mp (Nat.le_zero.mp hle)
    subst h0
    simp [hardBreakGo]
  | succ n ih =>
    intro token hle
    rw [hardBreakGo_succ]
    split
    · next hg =>
      apply ih
      rw [List.length_drop]
      have h1 := hardBreakCut_pos wd maxWidth token hg.2
      omega
    · next hg => exact hg

lemma hardBreakGo_rem_ne_nil (wd : List Char → ℚ) (maxWidth : ℚ) :
    ∀ (fuel : Nat) (token : List Char), token ≠ [] →
      (hardBreakGo wd maxWidth fuel token).2 ≠ [] := by
  intro fuel
  induction fuel with
  | zero =>
    intro token h
    simpa [hardBreakGo] using h
  | succ n ih =>
    intro token h
    rw [hardBreakGo_succ]
    split
    · next hg =>
      apply ih
      have hclt := hardBreakCut_lt wd maxWidth token hg.2
      apply List.ne_nil_of_length_pos
      rw [List.length_drop]
      omega
    · next hg => exact h

lemma wrapWords_mono_fits (wd : List Char → ℚ) (cw maxWidth : ℚ) (hcw : 0 < cw)
    (hwd : ∀ s, wd s = cw * s.length) :
    ∀ (words : List (List Char)) (current L : List Char),
      (cw * (current.length : ℚ) ≤ maxWidth ∨ current.length ≤ 1) →
      L ∈ wrapWords wd maxWidth words current → 1 < L.length →
      cw * (L.length : ℚ) ≤ maxWidth := by
  intro words
  induction words with
  | nil =>
    intro current L hinv hL hlen
    rw [wrapWords_nil] at hL
    split at hL
    · simp at hL
    · rcases List.mem_singleton.mp hL with rfl
      rcases hinv with h1 | h1
      · exact h1
      · omega
  | cons w ws ih =>
    intro current L hinv hL hlen
    by_cases hcur : current = []
    · subst hcur
      rw [wrapWords_cons_nil] at hL
      split at hL
      · next hle =>
        refine ih _ _ (Or.inl ?_) hL hlen
        rwa [hwd] at hle
      · next hgt =>
        rcases List.mem_append.mp hL with hL3 | hL4
        · exact hardBreakGo_chunk_fits wd cw maxWidth hcw hwd _ _ _ hL3 hlen
        · refine ih _ _ ?_ hL4 hlen
          have hrem := hardBreakGo_rem_exit wd maxWidth w.length w (le_refl _)
          rcases not_and_or.mp hrem with h1 | h1
          · left
            have h2 := not_lt.mp h1
            rwa [hwd] at h2
          · right
            omega
    · rw [wrapWords_cons_ne _ _ _ _ _ hcur] at hL
      split at hL
      · next hle =>
        refine ih _ _ (Or.inl ?_) hL hlen
        rwa [hwd] at hle
      · next hgt =>
        rcases List.mem_cons.mp hL with rfl | hL2
        · rcases hinv with h1 | h1
          · exact h1
          · omega
        · rcases List.mem_append.mp hL2 with hL3 | hL4
          · exact hardBreakGo_chunk_fits wd cw maxWidth hcw hwd _ _ _ hL3 hlen
          · refine ih _ _ ?_ hL4 hlen
            have hrem := hardBreakGo_rem_exit wd maxWidth w.length w (le_refl _)
            rcases not_and_or.mp hrem with h1 | h1
            · left
              have h2 := not_lt.mp h1
              rwa [hwd] at h2
            · right
              omega

/-- C1 amended: for a monospace font capability (every character `cw > 0`
points wide, as measured by `monoFont cw`), every line returned by `wrapText`
with more than one character measures at most `maxWidth`.  (For a
variable-width font the guarantee fails on hard-break chunks; see the
counterexample.) -/
theorem wrap_mono_width (text : List Char) (maxWidth cw fontSize : ℚ) (hcw : 0 < cw)
    (L : List Char) (hL : L ∈ wrapText text maxWidth (monoFont cw) fontSize)
    (hlen : 1 < L.length) :
    monoFont cw L fontSize ≤ maxWidth := by
  show cw * (L.length : ℚ) ≤ maxWidth
  unfold wrapText at hL
  rcases List.mem_flatMap.mp hL with ⟨para, hpara, hLp⟩
  split at hLp
  · rcases List.mem_singleton.mp hLp with rfl
    simp at hlen
  · exact wrapWords_mono_fits _ cw maxWidth hcw (fun s => rfl) _ _ _
      (Or.inr (by simp)) hLp hlen

theorem wrap_mono_width_witness :
    monoFont 1 "ab".toList 11 ≤ 2 :=
  wrap_mono_width "ab cd".toList 2 1 11 (by norm_num) "ab".toList
    (by with_unfolding_all decide) (by decide)

/-- C1 as stated is false for a variable-width font: with a font where `W`
measures 5 and every other character 1, wrapping the single word `WWii` at
`maxWidth = 10` hard-breaks it into the chunk `WWi` — a three-character line
measuring 11 > 10 — and the remainder `i`. -/
theorem wrap_width_cex :
    "WWi".toList ∈ wrapText "WWii".toList 10 cexFont 11 ∧
    1 < ("WWi".toList).length ∧ ¬ cexFont "WWi".toList 11 ≤ 10 := by
  with_unfolding_all decide

lemma mem_normalizeCrlf (c : Char) (hc : c ≠ '\r') :
    ∀ (l : List Char), c ∈ l → c ∈ normalizeCrlf l := by
  intro l
  induction l using normalizeCrlf.induct with
  | case1 => intro h; exact h
  | case2 d => intro h; exact h
  | case3 a b rest hab ih =>
    intro h
    rcases hab with ⟨rfl, rfl⟩
    rw [normalizeCrlf, if_pos ⟨rfl, rfl⟩]
    rcases List.mem_cons.mp h with rfl | h'
    · exact absurd rfl hc
    · rcases List.mem_cons.mp h' with rfl | h''
      · exact List.mem_cons_self _ _
      · exact List.mem_cons_of_mem _ (ih h'')
  | case4 a b rest hab ih =>
    intro h
    rw [normalizeCrlf, if_neg hab]
    rcases List.mem_cons.mp h with rfl | h'
    · exact List.mem_cons_self _ _
    · exact List.mem_cons_of_mem _ (ih h')

lemma mem_splitOnNlGo (c : Char) (hc : c ≠ '\n') :
    ∀ (l acc : List Char), c ∈ l ∨ c ∈ acc →
      ∃ p ∈ splitOnNlGo l acc, c ∈ p := by
  intro l
  induction l with
  | nil =>
    intro acc h
    rcases h with h | h
    · simp at h
    · exact ⟨acc.reverse, by simp [splitOnNlGo], List.mem_reverse.mpr h⟩
  | cons d ds ih =>
    intro acc h
    by_cases hd : d = '\n'
    · subst hd
      rw [splitOnNlGo, if_pos rfl]
      rcases h with h | h
      · rcases List.mem_cons.mp h with rfl | h'
        · exact absurd rfl hc
        · rcases ih [] (Or.inl h') with ⟨p, hp, hcp⟩
          exact ⟨p, List.mem_cons_of_mem _ hp, hcp⟩
      · exact ⟨acc.reverse, List.mem_cons_self _ _, List.mem_reverse.mpr h⟩
    · rw [splitOnNlGo, if_neg hd]
      rcases h with h | h
      · rcases List.mem_cons.mp h with rfl | h'
        · exact ih (c :: acc) (Or.inr (List.mem_cons_self _ _))
        · exact ih (d :: acc) (Or.inl h')
      · exact ih (d :: acc) (Or.inr (List.mem_cons_of_mem _ h))

lemma mem_splitWsGo (c : Char) (hc : jsWhitespace c = false) :
    ∀ (l acc : List Char) (sep : Bool), c ∈ l ∨ c ∈ acc →
      ∃ p ∈ splitWsGo l acc sep, c ∈ p := by
  intro l
  induction l with
  | nil =>
    intro acc sep h
    rcases h with h | h
    · simp at h
    · exact ⟨acc.reverse, by simp [splitWsGo], List.mem_reverse.mpr h⟩
  | cons d ds ih =>
    intro acc sep h
    have hcd : c ∈ (d :: ds) → c ∈ ds ∨ c = d := by
      intro hmem
      rcases List.mem_cons.mp hmem with h1 | h1
      · exact Or.inr h1
      · exact Or.inl h1
    by_cases hd : jsWhitespace d
    · have hcne : c ≠ d := fun hcd' => by rw [hcd'] at hc; rw [hc] at hd; exact Bool.false_ne_true hd
      rw [splitWsGo, if_pos hd]
      rcases h with h | h
      · rcases List.mem_cons.mp h with rfl | h'
        · exact absurd rfl hcne
        · by_cases hs : sep
          · subst hs
            exact ih acc true (Or.inl h')
          · simp only [Bool.not_eq_true] at hs
            subst hs
            rcases ih [] true (Or.inl h') with ⟨p, hp, hcp⟩
            exact ⟨p, List.mem_cons_of_mem _ hp, hcp⟩
      · by_cases hs : sep
        · subst hs
          exact ih acc true (Or.inr h)
        · simp only [Bool.not_eq_true] at hs
          subst hs
          exact ⟨acc.reverse, List.mem_cons_self _ _, List.mem_reverse.mpr h⟩
    · simp only [Bool.not_eq_true] at hd
      rw [splitWsGo, hd]
      rcases h with h | h
      · rcases List.mem_cons.mp h with rfl | h'
        · exact ih (c :: acc) false (Or.inr (List.mem_cons_self _ _))
        · exact ih (d :: acc) false (Or.inl h')
      · exact ih (d :: acc) false (Or.inr (List.mem_cons_of_mem _ h))

lemma wrapWords_ne_nil (wd : List Char → ℚ) (maxWidth : ℚ) :
    ∀ (words : List (List Char)) (current : List Char),
      ((∃ w ∈ words, w ≠ []) ∨ current ≠ []) →
      wrapWords wd maxWidth words current ≠ [] := by
  intro words
  induction words with
  | nil =>
    intro current h
    rcases h with ⟨w, hw, _⟩ | h
    · simp at hw
    · rw [wrapWords_nil, if_neg h]
      simp
  | cons w ws ih =>
    intro current h
    by_cases hcur : current = []
    · subst hcur
      rw [wrapWords_cons_nil]
      have hws : ∃ w' ∈ w :: ws, w' ≠ [] := by
        rcases h with h | h
        · exact h
        · exact absurd rfl h
      split
      · next hle =>
        apply ih
        rcases hws with ⟨w', hw', hne⟩
        rcases List.mem_cons.mp hw' with rfl | h'
        · exact Or.inr hne
        · exact Or.inl ⟨w', h', hne⟩
      · next hgt =>
        rcases hws with ⟨w', hw', hne⟩
        rcases List.mem_cons.mp hw' with rfl | h'
        · have h2 := hardBreakGo_rem_ne_nil wd maxWidth w'.length w' hne
          have h3 := ih _ (Or.inr h2)
          intro hnil
          exact h3 (List.append_eq_nil.mp hnil).2
        · have h3 := ih (hardBreakGo wd maxWidth w.length w).2 (Or.inl ⟨w', h', hne⟩)
          intro hnil
          exact h3 (List.append_eq_nil.mp hnil).2
    · rw [wrapWords_cons_ne _ _ _ _ _ hcur]
      split
      · next hle =>
        apply ih
        right
        simp
      · next hgt =>
        simp

/-- C4 amended: `wrapText` returns at least one line for every input that
contains at least one non-whitespace character (with any `maxWidth`, font
and `fontSize`).  (A non-empty input consisting only of non-newline
whitespace yields no lines; see the counterexample.) -/
theorem wrap_nonempty (text : List Char) (maxWidth fontSize : ℚ)
    (font : List Char → ℚ → ℚ) (h : ∃ c ∈ text, jsWhitespace c = false) :
    wrapText text maxWidth font fontSize ≠ [] := by
  rcases h with ⟨c, hct, hcw⟩
  have hcr : c ≠ '\r' := fun hh => by subst hh; exact absurd hcw (by decide)
  have hcn : c ≠ '\n' := fun hh => by subst hh; exact absurd hcw (by decide)
  have h1 : c ∈ normalizeCrlf text := mem_normalizeCrlf c hcr text hct
  rcases mem_splitOnNlGo c hcn (normalizeCrlf text) [] (Or.inl h1) with ⟨p, hp, hcp⟩
  unfold wrapText
  intro hnil
  rw [List.flatMap_eq_nil_iff] at hnil
  have h2 := hnil p hp
  have hpne : p ≠ [] := List.ne_nil_of_mem hcp
  rw [if_neg hpne] at h2
  rcases mem_splitWsGo c hcw p [] false (Or.inl hcp) with ⟨w, hw, hcw'⟩
  exact wrapWords_ne_nil _ maxWidth (splitWs p) []
    (Or.inl ⟨w, hw, List.ne_nil_of_mem hcw'⟩) h2

theorem wrap_nonempty_witness :
    wrapText "hi".toList 1 (monoFont 1) 11 ≠ [] :=
  wrap_nonempty "hi".toList 1 11 (monoFont 1) ⟨'h', by decide, by decide⟩

/-- C4 as stated is false: the input `" "` is non-empty and `maxWidth = 1` is
positive, yet `wrapText` returns no lines at all — splitting the whitespace
paragraph on `/\s+/` yields only empty words, which the loop never emits. -/
theorem wrap_nonempty_cex :
    wrapText " ".toList 1 (monoFont 1) 11 = [] ∧ " ".toList ≠ [] ∧ (0 : ℚ) < 1 := by
  with_unfolding_all decide

end CLMPdf
